import Mathlib

/-!
Verification of the `DigitalDelay` effect of the rustafx repository
(src/effects/delay.rs), shallowly embedded in Lean 4. Samples (`f32` in the
source) are modelled as rationals; `usize` indices as `Nat`; a Rust panic
(index out of bounds, failed `assert!`, arithmetic overflow check) is
modelled explicitly: fallible operations return `Option`, and
`process_inplace` returns a `PRes` value that carries the engine state and
buffer as they stand at the moment the call halts, so that partial mutation
before a panic is observable.
-/

/-- Outcome of a call that mutates state in place and may panic partway:
`ok` carries the final state, `panic` carries the state exactly as it stands
when execution halts. -/
inductive PRes (α : Type) : Type where
  | ok : α → PRes α
  | panic : α → PRes α
deriving DecidableEq

/-- The value carried by either outcome (the state as left behind by the call). -/
def PRes.val : PRes α → α
  | .ok a => a
  | .panic a => a

/-- Whether the call ran to completion. -/
def PRes.isOk : PRes α → Bool
  | .ok _ => true
  | .panic _ => false

/-- Constant `MAX_DELAY_TIME` (ms) from src/effects/delay.rs. -/
def MAX_DELAY_TIME : ℚ := 1000

/-- Constant `DEFAULT_DELAY_TIME` (ms) from src/effects/delay.rs. -/
def DEFAULT_DELAY_TIME : ℚ := 100

/-- Constant `DEFAULT_FEEDBACK` from src/effects/delay.rs. -/
def DEFAULT_FEEDBACK : ℚ := 0.2

/-- Constant `DEFAULT_DRY_GAIN` from src/effects/delay.rs. -/
def DEFAULT_DRY_GAIN : ℚ := 1

/-- Constant `DEFAULT_WET_GAIN` from src/effects/delay.rs. -/
def DEFAULT_WET_GAIN : ℚ := 0.25

/-- The `DigitalDelay` struct of src/effects/delay.rs. -/
structure DigitalDelay where
  sample_rate : ℚ
  delay_time : ℚ
  feedback : ℚ
  dry_gain : ℚ
  wet_gain : ℚ
  delay_int : ℕ
  delay_frac : ℚ
  delay_lines : List (List ℚ)
  read_index : ℕ
deriving DecidableEq

/-- Modelled from the spec: `BufferViewMut::num_samples` (src/buffer_view.rs is
not part of the provided sources). The view is a sequence of per-channel sample
slices; per the spec all channel slices have identical length equal to the
reported sample count, so the count is read off the first channel (0 when the
view has no channels). -/
def numSamples (buffer : List (List ℚ)) : ℕ := (buffer.headD []).length

/-- `DigitalDelay::new` (src/effects/delay.rs): default parameters and one
empty delay line per channel (`vec![vec![0.0; 0]; num_channels]`). -/
def DigitalDelay.new (num_channels : ℕ) : DigitalDelay :=
  { sample_rate := 0
    delay_time := DEFAULT_DELAY_TIME
    feedback := DEFAULT_FEEDBACK
    dry_gain := DEFAULT_DRY_GAIN
    wet_gain := DEFAULT_WET_GAIN
    delay_int := 0
    delay_frac := 0
    delay_lines := List.replicate num_channels []
    read_index := 0 }

/-- `DigitalDelay::reset` (the `Effect::reset` impl): fill every delay line
with zeros in place and reset the read index. -/
def DigitalDelay.reset (d : DigitalDelay) : DigitalDelay :=
  { d with
    delay_lines := d.delay_lines.map (fun channel => List.replicate channel.length 0)
    read_index := 0 }

/-- `DigitalDelay::prepare` (the `Effect::prepare` impl). The failed
`assert!(sample_rate > 0.0)` is modelled as `none`. `delay_samples.floor() as
usize` is `Int.toNat ∘ Int.floor` (the Rust float-to-int cast saturates at 0).
`Vec::resize(n, 0.0)` truncates or pads with zeros. -/
def DigitalDelay.prepare (d : DigitalDelay) (sample_rate : ℚ) (_block_size : ℕ) :
    Option DigitalDelay :=
  if 0 < sample_rate then
    let delay_samples : ℚ := d.delay_time * sample_rate / 1000
    let delay_int : ℕ := (Int.floor delay_samples).toNat
    let delay_frac : ℚ := delay_samples - (delay_int : ℚ)
    let d1 := { d with
                sample_rate := sample_rate
                delay_int := delay_int
                delay_frac := delay_frac }
    let d2 := d1.reset
    let max_delay_samples : ℕ := (Int.ceil (MAX_DELAY_TIME * sample_rate / 1000)).toNat
    let n := Nat.nextPowerOfTwo max_delay_samples
    some { d2 with
           delay_lines := d2.delay_lines.map
             (fun channel => channel.take n ++ List.replicate (n - channel.length) 0) }
  else none

/-- `DigitalDelay::set_delay_time`: `assert!(delay > 0.0)` then update the one
field. -/
def DigitalDelay.set_delay_time (d : DigitalDelay) (delay : ℚ) : Option DigitalDelay :=
  if 0 < delay then some { d with delay_time := delay } else none

/-- `DigitalDelay::set_feedback`: `assert!((0.0..=1.0).contains(&feedback))`. -/
def DigitalDelay.set_feedback (d : DigitalDelay) (feedback : ℚ) : Option DigitalDelay :=
  if 0 ≤ feedback ∧ feedback ≤ 1 then some { d with feedback := feedback } else none

/-- `DigitalDelay::set_dry_gain`: `assert!(dry_gain >= 0.0)`. -/
def DigitalDelay.set_dry_gain (d : DigitalDelay) (dry_gain : ℚ) : Option DigitalDelay :=
  if 0 ≤ dry_gain then some { d with dry_gain := dry_gain } else none

/-- `DigitalDelay::set_wet_gain`: `assert!(wet_gain >= 0.0)`. -/
def DigitalDelay.set_wet_gain (d : DigitalDelay) (wet_gain : ℚ) : Option DigitalDelay :=
  if 0 ≤ wet_gain then some { d with wet_gain := wet_gain } else none

/-- The inner per-sample loop of `DigitalDelay::process_inplace` over one
channel (src/effects/delay.rs lines 75-90). The three cursors advance masked
(`&&& mask`) exactly as in the source; the entry values are whatever the caller
passes (the source does not mask them at initialization). Each out-of-bounds
index is a panic at precisely the point the source would panic: the read
`delay_line[read_index]` before any write, the `write_index1` store after the
read, the `write_index2` store after the first store, and the `*sample`
assignment only after both stores. -/
def processChannel (feedback dry_gain wet_gain delay_frac : ℚ) (mask : ℕ) :
    List ℚ → ℕ → ℕ → ℕ → List ℚ → PRes (List ℚ × List ℚ)
  | delay_line, _, _, _, [] => .ok (delay_line, [])
  | delay_line, read_index, write_index1, write_index2, sample :: rest =>
    match delay_line.get? read_index with
    | none => .panic (delay_line, sample :: rest)
    | some y =>
      let x := sample + y * feedback
      if write_index1 < delay_line.length then
        let line1 := delay_line.set write_index1 (x * (1 - delay_frac))
        if write_index2 < line1.length then
          let line2 := line1.set write_index2 (x * delay_frac)
          let out := dry_gain * sample + wet_gain * y
          match processChannel feedback dry_gain wet_gain delay_frac mask line2
              ((read_index + 1) &&& mask) ((write_index1 + 1) &&& mask)
              ((write_index2 + 1) &&& mask) rest with
          | .ok (line3, outs) => .ok (line3, out :: outs)
          | .panic (line3, outs) => .panic (line3, out :: outs)
        else .panic (line1, sample :: rest)
      else .panic (delay_line, sample :: rest)

/-- The outer per-channel loop of `DigitalDelay::process_inplace`: channel `ch`
of the buffer is processed against `self.delay_lines[ch]` (a panic when that
line does not exist), with the read cursor and the unmasked initial write pair
recomputed per channel. On a panic the channels already processed keep their
transformed samples and mutated delay lines. -/
def processChannels (feedback dry_gain wet_gain delay_frac : ℚ)
    (delay_int mask read_index : ℕ) :
    List (List ℚ) → ℕ → List (List ℚ) → PRes (List (List ℚ) × List (List ℚ))
  | lines, _, [] => .ok (lines, [])
  | lines, ch, channel :: rest =>
    match lines.get? ch with
    | none => .panic (lines, channel :: rest)
    | some delay_line =>
      match processChannel feedback dry_gain wet_gain delay_frac mask delay_line
          read_index (read_index + delay_int) (read_index + delay_int + 1) channel with
      | .panic (line2, channel2) => .panic (lines.set ch line2, channel2 :: rest)
      | .ok (line2, channel2) =>
        match processChannels feedback dry_gain wet_gain delay_frac delay_int mask
            read_index (lines.set ch line2) (ch + 1) rest with
        | .ok (lines2, rest2) => .ok (lines2, channel2 :: rest2)
        | .panic (lines2, rest2) => .panic (lines2, channel2 :: rest2)

/-- `DigitalDelay::process_inplace` (src/effects/delay.rs lines 62-95).
`self.delay_lines[0]` panics when the engine has no channels; the debug-mode
overflow check on `delay_line_len - 1` panics when the first delay line is
empty (as at construction); afterwards the per-channel loop runs and the
shared read index advances by the block length, masked. -/
def DigitalDelay.process_inplace (d : DigitalDelay) (buffer : List (List ℚ)) :
    PRes (DigitalDelay × List (List ℚ)) :=
  let num_samples := numSamples buffer
  match d.delay_lines.get? 0 with
  | none => .panic (d, buffer)
  | some line0 =>
    if line0.length = 0 then .panic (d, buffer)
    else
      let delay_line_mask := line0.length - 1
      match processChannels d.feedback d.dry_gain d.wet_gain d.delay_frac d.delay_int
          delay_line_mask d.read_index d.delay_lines 0 buffer with
      | .panic (lines2, buffer2) => .panic ({ d with delay_lines := lines2 }, buffer2)
      | .ok (lines2, buffer2) =>
        .ok ({ d with
               delay_lines := lines2
               read_index := (d.read_index + num_samples) &&& delay_line_mask }, buffer2)

/-! Helper lemmas about `Nat.nextPowerOfTwo` and list access. -/

theorem le_nextPowerOfTwo_go (n power : ℕ) (h : 0 < power) :
    n ≤ Nat.nextPowerOfTwo.go n power h := by
  unfold Nat.nextPowerOfTwo.go
  split
  · exact le_nextPowerOfTwo_go n (power * 2) (Nat.mul_pos h (by norm_num))
  · omega
termination_by n - power
decreasing_by exact Nat.nextPowerOfTwo_dec h (by assumption)

theorem le_nextPowerOfTwo (n : ℕ) : n ≤ Nat.nextPowerOfTwo n :=
  le_nextPowerOfTwo_go n 1 (by norm_num)

theorem nextPowerOfTwo_go_stop (n power : ℕ) (h : 0 < power) (hge : ¬ power < n) :
    Nat.nextPowerOfTwo.go n power h = power := by
  rw [Nat.nextPowerOfTwo.go, if_neg hge]

theorem nextPowerOfTwo_go_step (n power : ℕ) (h : 0 < power) (hlt : power < n) :
    Nat.nextPowerOfTwo.go n power h
      = Nat.nextPowerOfTwo.go n (power * 2) (Nat.mul_pos h (by norm_num)) := by
  rw [Nat.nextPowerOfTwo.go, if_pos hlt]

theorem np2_one : Nat.nextPowerOfTwo 1 = 1 :=
  nextPowerOfTwo_go_stop 1 1 (by norm_num) (by norm_num)

theorem np2_four : Nat.nextPowerOfTwo 4 = 4 := by
  have h2 : Nat.nextPowerOfTwo.go 4 2 (by norm_num) = 4 := by
    rw [nextPowerOfTwo_go_step 4 2 (by norm_num) (by norm_num)]
    exact nextPowerOfTwo_go_stop 4 4 (by norm_num) (by norm_num)
  have h1 : Nat.nextPowerOfTwo.go 4 1 (by norm_num) = 4 := by
    rw [nextPowerOfTwo_go_step 4 1 (by norm_num) (by norm_num)]
    exact h2
  exact h1

theorem get?_of_lt {l : List ℚ} {i : ℕ} (h : i < l.length) :
    l.get? i = some (l.getD i 0) := by
  rw [List.get?_eq_getElem?, List.getD_eq_getElem?_getD, List.getElem?_eq_getElem h]
  rfl

theorem getD_set_self {l : List ℚ} {i : ℕ} (a : ℚ) (h : i < l.length) :
    (l.set i a).getD i 0 = a := by
  rw [List.getD_eq_getElem?_getD, List.getElem?_set_self (by simpa using h)]
  rfl

theorem getD_set_ne {l : List ℚ} {i j : ℕ} (a : ℚ) (h : i ≠ j) :
    (l.set i a).getD j 0 = l.getD j 0 := by
  rw [List.getD_eq_getElem?_getD, List.getElem?_set_ne h, ← List.getD_eq_getElem?_getD]

theorem getD_replicate_zero {n m : ℕ} : (List.replicate n (0 : ℚ)).getD m 0 = 0 := by
  rw [List.getD_eq_getElem?_getD, List.getElem?_replicate]
  split <;> rfl

/-! Concrete reachable engine states used as inputs below. -/

/-- Engine `DigitalDelay::new(1)` after `prepare(1.0, 0)` (a 1 Hz sample rate):
the delay line has length `N = 1`, `delay_int = 0`, `delay_frac = 1/10`. -/
def dC1 : DigitalDelay :=
  { sample_rate := 1, delay_time := 100, feedback := 0.2, dry_gain := 1, wet_gain := 0.25,
    delay_int := 0, delay_frac := 1/10, delay_lines := [[0]], read_index := 0 }

theorem dC1_build : (DigitalDelay.new 1).prepare 1 0 = some dC1 := by
  simp [DigitalDelay.new, DigitalDelay.prepare, DigitalDelay.reset, dC1, np2_one,
    MAX_DELAY_TIME, DEFAULT_DELAY_TIME, DEFAULT_FEEDBACK, DEFAULT_DRY_GAIN, DEFAULT_WET_GAIN]
  norm_num

/-- Engine `DigitalDelay::new(1)` after `set_delay_time(250.0)` and
`prepare(4.0, 0)`: delay line length `N = 4`, `delay_int = 1`, `delay_frac = 0`. -/
def engA : DigitalDelay :=
  { sample_rate := 4, delay_time := 250, feedback := 0.2, dry_gain := 1, wet_gain := 0.25,
    delay_int := 1, delay_frac := 0, delay_lines := [[0, 0, 0, 0]], read_index := 0 }

theorem engA_build :
    ((DigitalDelay.new 1).set_delay_time 250).bind (fun d => d.prepare 4 0) = some engA := by
  simp [DigitalDelay.new, DigitalDelay.set_delay_time, DigitalDelay.prepare,
    DigitalDelay.reset, engA, np2_four,
    MAX_DELAY_TIME, DEFAULT_DELAY_TIME, DEFAULT_FEEDBACK, DEFAULT_DRY_GAIN, DEFAULT_WET_GAIN]
  norm_num [List.replicate]

/-- Engine `DigitalDelay::new(1)` after `set_dry_gain(0.0)`, `set_wet_gain(1.0)`
and `prepare(4.0, 0)` (default `delay_time = 100` ms): delay line length
`N = 4`, `delay_int = 0`, `delay_frac = 2/5 > 0`. -/
def engB : DigitalDelay :=
  { sample_rate := 4, delay_time := 100, feedback := 0.2, dry_gain := 0, wet_gain := 1,
    delay_int := 0, delay_frac := 2/5, delay_lines := [[0, 0, 0, 0]], read_index := 0 }

theorem engB_build :
    (((DigitalDelay.new 1).set_dry_gain 0).bind (fun d => d.set_wet_gain 1)).bind
      (fun d => d.prepare 4 0) = some engB := by
  simp [DigitalDelay.new, DigitalDelay.set_dry_gain, DigitalDelay.set_wet_gain,
    DigitalDelay.prepare, DigitalDelay.reset, engB, np2_four,
    MAX_DELAY_TIME, DEFAULT_DELAY_TIME, DEFAULT_FEEDBACK, DEFAULT_DRY_GAIN, DEFAULT_WET_GAIN]
  norm_num [List.replicate]

/-! Parameter setter characterizations (used by claim C9). -/

theorem set_delay_time_spec (d : DigitalDelay) (t : ℚ) :
    ((d.set_delay_time t).isSome = decide (0 < t)) ∧
    ((d.set_delay_time t).getD d).delay_time = (if 0 < t then t else d.delay_time) ∧
    ((d.set_delay_time t).getD d).sample_rate = d.sample_rate ∧
    ((d.set_delay_time t).getD d).feedback = d.feedback ∧
    ((d.set_delay_time t).getD d).dry_gain = d.dry_gain ∧
    ((d.set_delay_time t).getD d).wet_gain = d.wet_gain ∧
    ((d.set_delay_time t).getD d).delay_int = d.delay_int ∧
    ((d.set_delay_time t).getD d).delay_frac = d.delay_frac ∧
    ((d.set_delay_time t).getD d).delay_lines = d.delay_lines ∧
    ((d.set_delay_time t).getD d).read_index = d.read_index := by
  by_cases h : 0 < t <;> simp [DigitalDelay.set_delay_time, h]

theorem set_feedback_spec (d : DigitalDelay) (f : ℚ) :
    ((d.set_feedback f).isSome = decide (0 ≤ f ∧ f ≤ 1)) ∧
    ((d.set_feedback f).getD d).feedback = (if 0 ≤ f ∧ f ≤ 1 then f else d.feedback) ∧
    ((d.set_feedback f).getD d).sample_rate = d.sample_rate ∧
    ((d.set_feedback f).getD d).delay_time = d.delay_time ∧
    ((d.set_feedback f).getD d).dry_gain = d.dry_gain ∧
    ((d.set_feedback f).getD d).wet_gain = d.wet_gain ∧
    ((d.set_feedback f).getD d).delay_int = d.delay_int ∧
    ((d.set_feedback f).getD d).delay_frac = d.delay_frac ∧
    ((d.set_feedback f).getD d).delay_lines = d.delay_lines ∧
    ((d.set_feedback f).getD d).read_index = d.read_index := by
  by_cases h : 0 ≤ f ∧ f ≤ 1 <;> simp [DigitalDelay.set_feedback, h]

theorem set_dry_gain_spec (d : DigitalDelay) (g : ℚ) :
    ((d.set_dry_gain g).isSome = decide (0 ≤ g)) ∧
    ((d.set_dry_gain g).getD d).dry_gain = (if 0 ≤ g then g else d.dry_gain) ∧
    ((d.set_dry_gain g).getD d).sample_rate = d.sample_rate ∧
    ((d.set_dry_gain g).getD d).delay_time = d.delay_time ∧
    ((d.set_dry_gain g).getD d).feedback = d.feedback ∧
    ((d.set_dry_gain g).getD d).wet_gain = d.wet_gain ∧
    ((d.set_dry_gain g).getD d).delay_int = d.delay_int ∧
    ((d.set_dry_gain g).getD d).delay_frac = d.delay_frac ∧
    ((d.set_dry_gain g).getD d).delay_lines = d.delay_lines ∧
    ((d.set_dry_gain g).getD d).read_index = d.read_index := by
  by_cases h : 0 ≤ g <;> simp [DigitalDelay.set_dry_gain, h]

theorem set_wet_gain_spec (d : DigitalDelay) (g : ℚ) :
    ((d.set_wet_gain g).isSome = decide (0 ≤ g)) ∧
    ((d.set_wet_gain g).getD d).wet_gain = (if 0 ≤ g then g else d.wet_gain) ∧
    ((d.set_wet_gain g).getD d).sample_rate = d.sample_rate ∧
    ((d.set_wet_gain g).getD d).delay_time = d.delay_time ∧
    ((d.set_wet_gain g).getD d).feedback = d.feedback ∧
    ((d.set_wet_gain g).getD d).dry_gain = d.dry_gain ∧
    ((d.set_wet_gain g).getD d).delay_int = d.delay_int ∧
    ((d.set_wet_gain g).getD d).delay_frac = d.delay_frac ∧
    ((d.set_wet_gain g).getD d).delay_lines = d.delay_lines ∧
    ((d.set_wet_gain g).getD d).read_index = d.read_index := by
  by_cases h : 0 ≤ g <;> simp [DigitalDelay.set_wet_gain, h]

/-- C9: each parameter setter halts exactly when its argument violates its
invariant (`set_delay_time`: `delay ≤ 0`; `set_feedback`: outside `[0,1]`;
`set_dry_gain`/`set_wet_gain`: negative), and an accepted argument updates
exactly that one parameter field, leaving every other field — in particular
`delay_int` and `delay_frac` — unchanged. -/
theorem C9_setter_validation (d : DigitalDelay) (t f g w : ℚ) :
    (((d.set_delay_time t).isSome = decide (0 < t)) ∧
     ((d.set_delay_time t).getD d).delay_time = (if 0 < t then t else d.delay_time) ∧
     ((d.set_delay_time t).getD d).sample_rate = d.sample_rate ∧
     ((d.set_delay_time t).getD d).feedback = d.feedback ∧
     ((d.set_delay_time t).getD d).dry_gain = d.dry_gain ∧
     ((d.set_delay_time t).getD d).wet_gain = d.wet_gain ∧
     ((d.set_delay_time t).getD d).delay_int = d.delay_int ∧
     ((d.set_delay_time t).getD d).delay_frac = d.delay_frac ∧
     ((d.set_delay_time t).getD d).delay_lines = d.delay_lines ∧
     ((d.set_delay_time t).getD d).read_index = d.read_index) ∧
    (((d.set_feedback f).isSome = decide (0 ≤ f ∧ f ≤ 1)) ∧
     ((d.set_feedback f).getD d).feedback = (if 0 ≤ f ∧ f ≤ 1 then f else d.feedback) ∧
     ((d.set_feedback f).getD d).sample_rate = d.sample_rate ∧
     ((d.set_feedback f).getD d).delay_time = d.delay_time ∧
     ((d.set_feedback f).getD d).dry_gain = d.dry_gain ∧
     ((d.set_feedback f).getD d).wet_gain = d.wet_gain ∧
     ((d.set_feedback f).getD d).delay_int = d.delay_int ∧
     ((d.set_feedback f).getD d).delay_frac = d.delay_frac ∧
     ((d.set_feedback f).getD d).delay_lines = d.delay_lines ∧
     ((d.set_feedback f).getD d).read_index = d.read_index) ∧
    (((d.set_dry_gain g).isSome = decide (0 ≤ g)) ∧
     ((d.set_dry_gain g).getD d).dry_gain = (if 0 ≤ g then g else d.dry_gain) ∧
     ((d.set_dry_gain g).getD d).sample_rate = d.sample_rate ∧
     ((d.set_dry_gain g).getD d).delay_time = d.delay_time ∧
     ((d.set_dry_gain g).getD d).feedback = d.feedback ∧
     ((d.set_dry_gain g).getD d).wet_gain = d.wet_gain ∧
     ((d.set_dry_gain g).getD d).delay_int = d.delay_int ∧
     ((d.set_dry_gain g).getD d).delay_frac = d.delay_frac ∧
     ((d.set_dry_gain g).getD d).delay_lines = d.delay_lines ∧
     ((d.set_dry_gain g).getD d).read_index = d.read_index) ∧
    (((d.set_wet_gain w).isSome = decide (0 ≤ w)) ∧
     ((d.set_wet_gain w).getD d).wet_gain = (if 0 ≤ w then w else d.wet_gain) ∧
     ((d.set_wet_gain w).getD d).sample_rate = d.sample_rate ∧
     ((d.set_wet_gain w).getD d).delay_time = d.delay_time ∧
     ((d.set_wet_gain w).getD d).feedback = d.feedback ∧
     ((d.set_wet_gain w).getD d).dry_gain = d.dry_gain ∧
     ((d.set_wet_gain w).getD d).delay_int = d.delay_int ∧
     ((d.set_wet_gain w).getD d).delay_frac = d.delay_frac ∧
     ((d.set_wet_gain w).getD d).delay_lines = d.delay_lines ∧
     ((d.set_wet_gain w).getD d).read_index = d.read_index) :=
  ⟨set_delay_time_spec d t, set_feedback_spec d f, set_dry_gain_spec d g, set_wet_gain_spec d w⟩

/-- C6: `reset` (the source of the spec's `clear_history`) zeroes every sample
of every delay line and the read cursor, and changes nothing else: every
parameter field and every delay line length is preserved. -/
theorem C6_clear_history (d : DigitalDelay) (i j : ℕ) :
    d.reset.sample_rate = d.sample_rate ∧
    d.reset.delay_time = d.delay_time ∧
    d.reset.feedback = d.feedback ∧
    d.reset.dry_gain = d.dry_gain ∧
    d.reset.wet_gain = d.wet_gain ∧
    d.reset.delay_int = d.delay_int ∧
    d.reset.delay_frac = d.delay_frac ∧
    d.reset.read_index = 0 ∧
    d.reset.delay_lines.length = d.delay_lines.length ∧
    (d.reset.delay_lines.getD i []).length = (d.delay_lines.getD i []).length ∧
    (d.reset.delay_lines.getD i []).getD j 0 = 0 := by
  refine ⟨rfl, rfl, rfl, rfl, rfl, rfl, rfl, rfl, by simp [DigitalDelay.reset], ?_, ?_⟩
  · show ((d.delay_lines.map fun c => List.replicate c.length 0).getD i []).length
      = (d.delay_lines.getD i []).length
    induction d.delay_lines generalizing i with
    | nil => rfl
    | cons c L ih => cases i with
      | zero => simp
      | succ i => simpa using ih i
  · show ((d.delay_lines.map fun c => List.replicate c.length 0).getD i []).getD j 0 = 0
    induction d.delay_lines generalizing i with
    | nil => rfl
    | cons c L ih => cases i with
      | zero => simp [getD_replicate_zero]
      | succ i => simpa using ih i

/-- C10: calling `process_inplace` on a freshly constructed engine (before any
`prepare`: the delay lines are still empty, or the engine was constructed with
zero channels) halts with a panic — indexing `delay_lines[0]` on a
zero-channel engine, or the debug-mode underflow of `delay_line_len - 1` on an
empty delay line — and leaves both the engine state and the buffer exactly as
they were. -/
theorem C10_process_before_prepare_panics (num_channels : ℕ) (buffer : List (List ℚ)) :
    (DigitalDelay.new num_channels).process_inplace buffer
      = .panic (DigitalDelay.new num_channels, buffer) := by
  cases num_channels with
  | zero => simp [DigitalDelay.new, DigitalDelay.process_inplace]
  | succ n =>
    simp [DigitalDelay.new, DigitalDelay.process_inplace, List.replicate_succ]

/-- C1 (evaluation at the failing input): on the reachable configured engine
`dC1` (sample rate 1, delay line length `N = 1`, `delay_int = 0`, read cursor
`r = 0`), the first sample's second deposit is attempted at the unmasked index
`w2 = r + delay_int + 1 = 1 ≥ N` instead of `(w1 + 1) mod N = 0`, so
`process_inplace` panics out of bounds (after the `w1` slot has already been
written), contradicting the claim that every delay-line access stays within
bounds for every read cursor `0 ≤ r < N`. -/
theorem C1_initial_write_index_unmasked :
    (DigitalDelay.new 1).prepare 1 0 = some dC1 ∧
    dC1.process_inplace [[1]] = .panic ({ dC1 with delay_lines := [[9/10]] }, [[1]]) :=
  ⟨dC1_build, by
    simp [dC1, DigitalDelay.process_inplace, processChannels, processChannel, numSamples]
    norm_num⟩

/-- C2 counterexample: on the reachable 1-channel engine `engA`, a 2-channel
view violates the channel-count precondition, and the call does not fail fast
before mutating: it halts only after fully processing channel 0, whose delay
line has been mutated (slot 1 holds 1, where the engine's line held 0) at the
moment execution halts. -/
theorem C2_counterexample_partial_mutation :
    ((DigitalDelay.new 1).set_delay_time 250).bind (fun d => d.prepare 4 0) = some engA ∧
    engA.process_inplace [[1], [0]]
      = .panic ({ engA with delay_lines := [[0, 1, 0, 0]] }, [[1], [0]]) ∧
    ([[0, 1, 0, 0]] : List (List ℚ)) ≠ engA.delay_lines :=
  ⟨engA_build,
   by
    simp [engA, DigitalDelay.process_inplace, processChannels, processChannel, numSamples],
   by norm_num [engA]⟩

theorem pcs_more_channels_not_ok (fb dry wet frac : ℚ) (dint mask r : ℕ) :
    ∀ (channels lines : List (List ℚ)) (ch : ℕ), ch ≤ lines.length →
      lines.length < ch + channels.length →
      (processChannels fb dry wet frac dint mask r lines ch channels).isOk = false := by
  intro channels
  induction channels with
  | nil =>
    intro lines ch h1 h2
    exfalso
    simp only [List.length_nil, Nat.add_zero] at h2
    omega
  | cons c rest ih =>
    intro lines ch h1 h2
    rw [processChannels]
    split
    · rfl
    next line hget =>
      have hch : ch < lines.length := by
        by_contra hc
        rw [List.get?_eq_none.mpr (by omega)] at hget
        exact Option.noConfusion hget
      split
      · rfl
      next line2 c2 hpc =>
        have h := ih (lines.set ch line2) (ch + 1)
          (by simp only [List.length_set]; omega)
          (by simp only [List.length_set, List.length_cons] at h2 ⊢; omega)
        split
        next lines2 rest2 hrec => rw [hrec] at h; simp [PRes.isOk] at h
        next lines2 rest2 hrec => rfl

/-- C2 amended: a view with more channels than the engine has delay lines can
never complete -- `process_inplace` always halts partway (though not
necessarily before mutating buffers, see the counterexample). -/
theorem C2_amended_mismatch_never_completes (d : DigitalDelay) (buffer : List (List ℚ))
    (h : d.delay_lines.length < buffer.length) :
    (d.process_inplace buffer).isOk = false := by
  simp only [DigitalDelay.process_inplace]
  split
  · rfl
  next line0 hget =>
    split
    · rfl
    next hlen =>
      have hps := pcs_more_channels_not_ok d.feedback d.dry_gain d.wet_gain d.delay_frac
        d.delay_int (line0.length - 1) d.read_index buffer d.delay_lines 0
        (by omega) (by omega)
      split
      next lines2 buffer2 hpcs => rfl
      next lines2 buffer2 hpcs => rw [hpcs] at hps; simp [PRes.isOk] at hps

theorem C2_amended_witness :
    engA.delay_lines.length < ([[1], [0]] : List (List ℚ)).length ∧
    (engA.process_inplace [[1], [0]]).isOk = false :=
  ⟨by norm_num [engA],
   C2_amended_mismatch_never_completes engA [[1], [0]] (by norm_num [engA])⟩

theorem land_three (x : ℕ) : x &&& 3 = x % 4 := by
  have h := Nat.and_pow_two_sub_one_eq_mod x 2
  norm_num at h
  exact h

/-- C8 counterexample: on the reachable engine `engB` with
`delay_frac = 2/5 > 0` but `delay_int = 0`, sample 0's `w2` deposit is read
back (as output sample 1: dry = 0, wet = 1) before sample 1's `w1` store
overwrites it: the value read is `x_0 * delay_frac = 2/5`, not the later
sample's `(1 - delay_frac) * x_1 = 6/125`, refuting the claim for engines with
`delay_frac > 0` but `delay_int = 0`. -/
theorem C8_counterexample_delay_int_zero :
    ((((DigitalDelay.new 1).set_dry_gain 0).bind (fun d => d.set_wet_gain 1)).bind
      (fun d => d.prepare 4 0) = some engB) ∧
    0 < engB.delay_frac ∧
    engB.process_inplace [[1, 0]]
      = .ok ({ engB with delay_lines := [[3/5, 6/125, 4/125, 0]], read_index := 2 },
             [[0, 2/5]]) ∧
    (2/5 : ℚ) = (1 + 0 * engB.feedback) * engB.delay_frac ∧
    (2/5 : ℚ) ≠ (0 + (2/5) * engB.feedback) * (1 - engB.delay_frac) :=
  ⟨engB_build,
   by norm_num [engB],
   by
    simp [engB, DigitalDelay.process_inplace, processChannels, processChannel, numSamples,
      land_three]
    norm_num,
   by norm_num [engB],
   by norm_num [engB]⟩

/-! Claim C4: with `dry_gain = 1` and `wet_gain = 0` every sample is written
back unchanged, whatever happens to the delay lines. -/

theorem processChannel_dry_buffer (fb frac : ℚ) (mask : ℕ) :
    ∀ (samples line : List ℚ) (r w1 w2 : ℕ),
      (processChannel fb 1 0 frac mask line r w1 w2 samples).val.2 = samples := by
  intro samples
  induction samples with
  | nil => intro line r w1 w2; rfl
  | cons s rest ih =>
    intro line r w1 w2
    rw [processChannel]
    split
    · rfl
    next y hy =>
      dsimp only
      split
      · split
        · split
          next line3 outs hrec =>
            have h := ih ((line.set w1 ((s + y * fb) * (1 - frac))).set w2
                ((s + y * fb) * frac)) ((r + 1) &&& mask) ((w1 + 1) &&& mask)
                ((w2 + 1) &&& mask)
            rw [hrec] at h
            simp only [PRes.val] at h ⊢
            simp [h]
          next line3 outs hrec =>
            have h := ih ((line.set w1 ((s + y * fb) * (1 - frac))).set w2
                ((s + y * fb) * frac)) ((r + 1) &&& mask) ((w1 + 1) &&& mask)
                ((w2 + 1) &&& mask)
            rw [hrec] at h
            simp only [PRes.val] at h ⊢
            simp [h]
        · rfl
      · rfl

theorem processChannels_dry_buffer (fb frac : ℚ) (dint mask r : ℕ) :
    ∀ (channels lines : List (List ℚ)) (ch : ℕ),
      (processChannels fb 1 0 frac dint mask r lines ch channels).val.2 = channels := by
  intro channels
  induction channels with
  | nil => intro lines ch; rfl
  | cons c rest ih =>
    intro lines ch
    rw [processChannels]
    split
    · rfl
    next line hget =>
      split
      next line2 c2 hpc =>
        have h := processChannel_dry_buffer fb frac mask c line r (r + dint) (r + dint + 1)
        rw [hpc] at h
        simp only [PRes.val] at h ⊢
        simp [h]
      next line2 c2 hpc =>
        have h := processChannel_dry_buffer fb frac mask c line r (r + dint) (r + dint + 1)
        rw [hpc] at h
        simp only [PRes.val] at h
        split
        next lines2 rest2 hrec =>
          have h2 := ih (lines.set ch line2) (ch + 1)
          rw [hrec] at h2
          simp only [PRes.val] at h2 ⊢
          simp [h, h2]
        next lines2 rest2 hrec =>
          have h2 := ih (lines.set ch line2) (ch + 1)
          rw [hrec] at h2
          simp only [PRes.val] at h2 ⊢
          simp [h, h2]

/-- C4: for every engine with `wet_gain = 0` and `dry_gain = 1` and every
input block, the buffer left behind by `process_inplace` equals the input
block exactly, for all values of `delay_time`, `delay_int`, `delay_frac` and
`feedback` (each sample is rewritten as `1 * sample + 0 * y = sample`). -/
theorem C4_dry_identity (d : DigitalDelay) (buffer : List (List ℚ))
    (hwet : d.wet_gain = 0) (hdry : d.dry_gain = 1) :
    (d.process_inplace buffer).val.2 = buffer := by
  simp only [DigitalDelay.process_inplace]
  split
  · rfl
  next line0 hget =>
    split
    · rfl
    next hlen =>
      rw [hdry, hwet]
      split
      next lines2 buffer2 hpcs =>
        have h := processChannels_dry_buffer d.feedback d.delay_frac d.delay_int
          (line0.length - 1) d.read_index buffer d.delay_lines 0
        rw [hpcs] at h
        simpa [PRes.val] using h
      next lines2 buffer2 hpcs =>
        have h := processChannels_dry_buffer d.feedback d.delay_frac d.delay_int
          (line0.length - 1) d.read_index buffer d.delay_lines 0
        rw [hpcs] at h
        simpa [PRes.val] using h

/-- Engine with `wet_gain = 0`, `dry_gain = 1` used as the C4 witness input. -/
def dW4 : DigitalDelay := { engA with wet_gain := 0 }

theorem C4_dry_identity_witness :
    dW4.wet_gain = 0 ∧ dW4.dry_gain = 1 ∧
    (dW4.process_inplace [[2, 3]]).val.2 = [[2, 3]] :=
  ⟨rfl, rfl, C4_dry_identity dW4 [[2, 3]] rfl rfl⟩

/-! Functional characterization of a single-channel, non-wrapping run of
`processChannel` starting from an all-zero delay line with read cursor 0. -/

theorem land_mask_of_lt {x k : ℕ} (h : x < 2 ^ k) : x &&& (2 ^ k - 1) = x := by
  rw [Nat.and_pow_two_sub_one_eq_mod]
  exact Nat.mod_eq_of_lt h

/-- The value read back from the delay line at step `m` of such a run with
integer delay `D ≥ 1`, fractional weight `frac` and feedback `fb`:
zero for the first `D` steps, afterwards the `(1 - frac)`-weighted deposit of
the feedback-mixed input from `D` steps earlier (the `frac`-weighted second
deposit is always overwritten before it is read; proved against
`processChannel` below). -/
def yseq (fb frac : ℚ) (D : ℕ) (input : ℕ → ℚ) (m : ℕ) : ℚ :=
  if h : m < D ∨ D = 0 then 0
  else (1 - frac) * (input (m - D) + fb * yseq fb frac D input (m - D))
termination_by m
decreasing_by omega

/-- The feedback-mixed value deposited into the delay line at step `n`:
`x_n = input_n + fb * y_n`. -/
def xval (fb frac : ℚ) (D : ℕ) (input : ℕ → ℚ) (n : ℕ) : ℚ :=
  input n + fb * yseq fb frac D input n

theorem yseq_lt {fb frac : ℚ} {D m : ℕ} {input : ℕ → ℚ} (h : m < D) :
    yseq fb frac D input m = 0 := by
  rw [yseq, dif_pos (Or.inl h)]

theorem yseq_ge {fb frac : ℚ} {D m : ℕ} {input : ℕ → ℚ} (hD : 1 ≤ D) (h : D ≤ m) :
    yseq fb frac D input m = (1 - frac) * xval fb frac D input (m - D) := by
  rw [yseq, dif_neg (by omega), xval]

/-- Contents of the delay line after `t` samples of the run: slots `D ≤ j <
t + D` hold the `(1 - frac)`-weighted `x` of `j - D` (each slot's transient
`frac`-weighted deposit was overwritten one step later), the slot `t + D`
holds the pending `frac`-weighted deposit of the previous sample, everything
else is zero. -/
def lineInv (fb frac : ℚ) (D : ℕ) (input : ℕ → ℚ) (N t : ℕ) (line : List ℚ) : Prop :=
  line.length = N ∧
  ∀ j : ℕ, line.getD j 0 =
    if D ≤ j ∧ j < t + D then (1 - frac) * xval fb frac D input (j - D)
    else if j = t + D ∧ 0 < t then frac * xval fb frac D input (t - 1)
    else 0

theorem lineInv_replicate (fb frac : ℚ) (D : ℕ) (input : ℕ → ℚ) (N : ℕ) :
    lineInv fb frac D input N 0 (List.replicate N 0) := by
  refine ⟨by simp, fun j => ?_⟩
  rw [getD_replicate_zero]
  split_ifs with h1 h2
  · omega
  · omega
  · rfl

theorem processChannel_ok (fb dry wet frac : ℚ) (k D : ℕ) (input : ℕ → ℚ) (hD : 1 ≤ D) :
    ∀ (rest : List ℚ) (t : ℕ) (line : List ℚ),
      (∀ m : ℕ, rest.getD m 0 = input (t + m)) →
      t + rest.length + D + 2 ≤ 2 ^ k →
      lineInv fb frac D input (2 ^ k) t line →
      ∃ lineEnd,
        processChannel fb dry wet frac (2 ^ k - 1) line t (t + D) (t + D + 1) rest
          = .ok (lineEnd,
              List.ofFn (fun i : Fin rest.length =>
                dry * input (t + i) + wet * yseq fb frac D input (t + i)))
          ∧ lineInv fb frac D input (2 ^ k) (t + rest.length) lineEnd := by
  intro rest
  induction rest with
  | nil =>
    intro t line hin hB hI
    exact ⟨line, by simp [processChannel], by simpa using hI⟩
  | cons s rest ih =>
    intro t line hin hB hI
    obtain ⟨hlen, hget⟩ := hI
    simp only [List.length_cons] at hB
    have ht : t < 2 ^ k := by omega
    have hw1 : t + D < 2 ^ k := by omega
    have hw2 : t + D + 1 < 2 ^ k := by omega
    have hw2s : t + D + 1 + 1 < 2 ^ k := by omega
    have hread : line.get? t = some (line.getD t 0) := get?_of_lt (by omega)
    have hy : line.getD t 0 = yseq fb frac D input t := by
      rw [hget t]
      by_cases hc : D ≤ t
      · rw [if_pos ⟨hc, by omega⟩, yseq_ge hD hc]
      · rw [if_neg (by omega), if_neg (by omega), yseq_lt (by omega)]
    have hs : s = input t := by
      have h0 := hin 0
      simpa using h0
    have hx : s + line.getD t 0 * fb = xval fb frac D input t := by
      rw [hs, hy, xval]; ring
    -- the mutated line after this sample's two deposits
    set line2 : List ℚ :=
      (line.set (t + D) ((s + line.getD t 0 * fb) * (1 - frac))).set (t + D + 1)
        ((s + line.getD t 0 * fb) * frac) with hline2
    have hlen2 : line2.length = 2 ^ k := by
      simp [hline2, hlen]
    have hI2 : lineInv fb frac D input (2 ^ k) (t + 1) line2 := by
      refine ⟨hlen2, fun j => ?_⟩
      by_cases hj2 : j = t + D + 1
      · subst hj2
        rw [hline2, getD_set_self _ (by simp [hlen]; omega)]
        rw [if_neg (by omega), if_pos (by omega)]
        rw [hx]
        simp only [Nat.add_sub_cancel]
        ring
      · by_cases hj1 : j = t + D
        · subst hj1
          rw [hline2, getD_set_ne _ (by omega), getD_set_self _ (by simp [hlen]; omega)]
          rw [if_pos (by omega), hx]
          simp only [Nat.add_sub_cancel]
          ring
        · rw [hline2, getD_set_ne _ (by omega), getD_set_ne _ (by omega), hget j]
          split_ifs <;> first | rfl | omega
    have hin2 : ∀ m : ℕ, rest.getD m 0 = input (t + 1 + m) := by
      intro m
      have h := hin (m + 1)
      simp only [List.getD_cons_succ] at h
      rw [h]
      congr 1
      omega
    obtain ⟨lineEnd, heq, hIEnd⟩ := ih (t + 1) line2 hin2 (by omega) hI2
    refine ⟨lineEnd, ?_, ?_⟩
    · rw [processChannel, hread]
      dsimp only
      rw [if_pos (by rw [hlen]; omega)]
      rw [if_pos (by simp [hlen]; omega)]
      rw [land_mask_of_lt (show t + 1 < 2 ^ k by omega),
        land_mask_of_lt (show t + D + 1 < 2 ^ k by omega),
        land_mask_of_lt (show t + D + 1 + 1 < 2 ^ k by omega)]
      have harg1 : t + 1 + D = t + D + 1 := by omega
      rw [harg1] at heq
      rw [← hline2, heq]
      dsimp only
      have hhead : dry * s + wet * line.getD t 0
          = dry * input t + wet * yseq fb frac D input t := by
        rw [hs, hy]
      have htail :
          (fun i : Fin rest.length =>
            dry * input (t + 1 + (i : ℕ)) + wet * yseq fb frac D input (t + 1 + (i : ℕ)))
          = (fun i : Fin rest.length =>
            dry * input (t + ((i : ℕ) + 1)) + wet * yseq fb frac D input (t + ((i : ℕ) + 1))) := by
        funext i
        have harg : t + 1 + (i : ℕ) = t + ((i : ℕ) + 1) := by omega
        rw [harg]
      simp only [List.length_cons]
      rw [List.ofFn_succ]
      simp only [Fin.val_zero, Nat.add_zero, Fin.val_succ]
      rw [hhead, htail]
    · simp only [List.length_cons]
      have : t + (rest.length + 1) = t + 1 + rest.length := by omega
      rw [this]
      exact hIEnd

theorem process_inplace_single (fb dry wet frac : ℚ) (k D : ℕ) (input : ℕ → ℚ)
    (samples : List ℚ) (d : DigitalDelay) (hD : 1 ≤ D)
    (hfb : d.feedback = fb) (hdry : d.dry_gain = dry) (hwet : d.wet_gain = wet)
    (hfrac : d.delay_frac = frac) (hdint : d.delay_int = D)
    (hlines : d.delay_lines = [List.replicate (2 ^ k) 0])
    (hr : d.read_index = 0)
    (hin : ∀ m : ℕ, samples.getD m 0 = input m)
    (hB : samples.length + D + 2 ≤ 2 ^ k) :
    ∃ lineEnd,
      d.process_inplace [samples]
        = .ok ({ d with delay_lines := [lineEnd], read_index := samples.length },
            [List.ofFn (fun i : Fin samples.length =>
              dry * input (i : ℕ) + wet * yseq fb frac D input (i : ℕ))]) := by
  obtain ⟨lineEnd, heq, _⟩ := processChannel_ok fb dry wet frac k D input hD samples 0
    (List.replicate (2 ^ k) 0) (fun m => by rw [hin m, Nat.zero_add]) (by omega)
    (lineInv_replicate fb frac D input (2 ^ k))
  simp only [Nat.zero_add] at heq
  refine ⟨lineEnd, ?_⟩
  simp only [DigitalDelay.process_inplace, hlines, numSamples, List.headD]
  rw [show ([List.replicate (2 ^ k) (0 : ℚ)].get? 0) = some (List.replicate (2 ^ k) 0)
    from rfl]
  dsimp only
  rw [if_neg (by simp)]
  rw [processChannels]
  rw [show ([List.replicate (2 ^ k) (0 : ℚ)].get? 0) = some (List.replicate (2 ^ k) 0)
    from rfl]
  dsimp only
  rw [hfb, hdry, hwet, hfrac, hdint, hr]
  simp only [List.length_replicate, Nat.zero_add]
  rw [heq]
  dsimp only
  rw [processChannels]
  dsimp only
  simp only [List.set_cons_zero]
  rw [land_mask_of_lt (show samples.length < 2 ^ k by omega)]

theorem getD_ofFn {n : ℕ} (f : Fin n → ℚ) (m : ℕ) :
    (List.ofFn f).getD m 0 = if h : m < n then f ⟨m, h⟩ else 0 := by
  rw [List.getD_eq_getElem?_getD, List.getElem?_ofFn]
  simp only [List.ofFnNthVal]
  by_cases h : m < n
  · rw [dif_pos h, dif_pos h]
    rfl
  · rw [dif_neg h, dif_neg h]
    rfl

/-- The claim C3 input block: a unit impulse followed by 1999 zeros. -/
def c3impulse : List ℚ := 1 :: List.replicate 1999 0

/-- The C3 input as a function of the sample index. -/
def c3input : ℕ → ℚ := fun m => c3impulse.getD m 0

theorem c3input_eq (m : ℕ) : c3input m = if m = 0 then 1 else 0 := by
  cases m with
  | zero => rfl
  | succ m =>
    simp only [c3input, c3impulse, List.getD_cons_succ]
    rw [getD_replicate_zero]
    simp

theorem yseq_c3 (m : ℕ) :
    yseq 0.3 0 528 c3input m
      = if m ≠ 0 ∧ m % 528 = 0 then (0.3 : ℚ) ^ (m / 528 - 1) else 0 := by
  induction m using Nat.strong_induction_on with
  | _ m ih =>
    by_cases hm : m < 528
    · rw [yseq_lt hm, if_neg (by omega)]
    · have h528 : (528 : ℕ) ≤ m := by omega
      rw [yseq_ge (by norm_num) h528, xval, ih (m - 528) (by omega), c3input_eq]
      by_cases hdvd : m % 528 = 0
      · by_cases hm528 : m = 528
        · subst hm528
          norm_num
        · have hge : 1056 ≤ m := by omega
          rw [if_neg (by omega),
            if_pos (show m - 528 ≠ 0 ∧ (m - 528) % 528 = 0 by omega),
            if_pos (show m ≠ 0 ∧ m % 528 = 0 by omega)]
          have hexp : m / 528 - 1 = ((m - 528) / 528 - 1) + 1 := by omega
          rw [hexp, pow_succ]
          ring
      · rw [if_neg (by omega), if_neg (by omega), if_neg (by omega)]
        ring

/-- Engine configured exactly as in claim C3: `new(1)`, `set_delay_time(11.0)`,
`set_feedback(0.3)`, `set_dry_gain(0.0)`, `set_wet_gain(1.0)`,
`prepare(48000.0, 128)`. The derived values are `delay_int = 528`,
`delay_frac = 0`, one delay line of `nextPowerOfTwo 48000` zeros. -/
def dC3 : DigitalDelay :=
  { sample_rate := 48000, delay_time := 11, feedback := 0.3, dry_gain := 0, wet_gain := 1,
    delay_int := 528, delay_frac := 0,
    delay_lines := [List.replicate (Nat.nextPowerOfTwo 48000) 0], read_index := 0 }

/-- Intermediate engine state of the C3 scenario, after the four setters but
before `prepare`. -/
def dC3pre : DigitalDelay :=
  { DigitalDelay.new 1 with delay_time := 11, feedback := 0.3, dry_gain := 0, wet_gain := 1 }

theorem dC3pre_build :
    ((((DigitalDelay.new 1).set_delay_time 11).bind (fun d => d.set_feedback 0.3)).bind
      (fun d => d.set_dry_gain 0)).bind (fun d => d.set_wet_gain 1) = some dC3pre := by
  simp [DigitalDelay.new, DigitalDelay.set_delay_time, DigitalDelay.set_feedback,
    DigitalDelay.set_dry_gain, DigitalDelay.set_wet_gain, dC3pre]
  norm_num

theorem dC3_build :
    (((((DigitalDelay.new 1).set_delay_time 11).bind (fun d => d.set_feedback 0.3)).bind
      (fun d => d.set_dry_gain 0)).bind (fun d => d.set_wet_gain 1)).bind
      (fun d => d.prepare 48000 128) = some dC3 := by
  rw [dC3pre_build, Option.some_bind]
  unfold DigitalDelay.prepare
  rw [if_pos (show (0:ℚ) < 48000 by norm_num)]
  dsimp only [dC3pre, DigitalDelay.new, DigitalDelay.reset, DEFAULT_DELAY_TIME,
    DEFAULT_FEEDBACK, DEFAULT_DRY_GAIN, DEFAULT_WET_GAIN, MAX_DELAY_TIME]
  have hfl : Int.floor ((11 : ℚ) * 48000 / 1000) = (528 : ℤ) := by norm_num
  have hcl : Int.ceil ((1000 : ℚ) * 48000 / 1000) = (48000 : ℤ) := by norm_num
  rw [hfl, hcl]
  rw [show ((528 : ℤ)).toNat = 528 from rfl, show ((48000 : ℤ)).toNat = 48000 from rfl]
  rw [dC3]
  simp only [Option.some.injEq, DigitalDelay.mk.injEq]
  refine ⟨trivial, trivial, trivial, trivial, trivial, trivial, ?_, ?_, trivial⟩
  · norm_num
  · rw [List.replicate_one, List.map_cons, List.map_nil, List.map_cons, List.map_nil]
    rw [List.length_nil, List.replicate_zero, List.length_nil, Nat.sub_zero, List.take_nil,
      List.nil_append]

/-- C3: the engine configured with sample rate 48000, delay_time 11 ms,
feedback 0.3, dry_gain 0, wet_gain 1 (built exactly that way: see the first
conjunct) processes the 2000-sample single-channel impulse block to
completion, and the output is non-zero exactly at the indices `528 * j` for
`j = 1, 2, 3` (the multiples of 528 below 2000), where it equals
`0.3 ^ (m / 528 - 1)`; every other sample is zero. -/
theorem C3_impulse_echo_train :
    ((((((DigitalDelay.new 1).set_delay_time 11).bind (fun d => d.set_feedback 0.3)).bind
      (fun d => d.set_dry_gain 0)).bind (fun d => d.set_wet_gain 1)).bind
      (fun d => d.prepare 48000 128) = some dC3) ∧
    (dC3.process_inplace [c3impulse]).isOk = true ∧
    (dC3.process_inplace [c3impulse]).val.2.length = 1 ∧
    ((dC3.process_inplace [c3impulse]).val.2.getD 0 []).length = 2000 ∧
    ∀ m : ℕ, ((dC3.process_inplace [c3impulse]).val.2.getD 0 []).getD m 0
      = if m ≠ 0 ∧ m % 528 = 0 ∧ m < 2000 then (0.3 : ℚ) ^ (m / 528 - 1) else 0 := by
  obtain ⟨k, hk⟩ := Nat.isPowerOfTwo_nextPowerOfTwo 48000
  have h48 : 48000 ≤ 2 ^ k := hk ▸ le_nextPowerOfTwo 48000
  have hlen : c3impulse.length = 2000 := by
    rw [show c3impulse = 1 :: List.replicate 1999 0 from rfl, List.length_cons,
      List.length_replicate]
  obtain ⟨lineEnd, hrun⟩ := process_inplace_single 0.3 0 1 0 k 528 c3input c3impulse dC3
    (by norm_num) rfl rfl rfl rfl rfl
    (by rw [show dC3.delay_lines = [List.replicate (Nat.nextPowerOfTwo 48000) 0] from rfl,
      hk])
    rfl (fun m => rfl) (by rw [hlen]; omega)
  refine ⟨dC3_build, ?_, ?_, ?_, ?_⟩
  · rw [hrun]
    rfl
  · rw [hrun]
    rfl
  · rw [hrun]
    dsimp only [PRes.val]
    rw [List.getD_cons_zero, List.length_ofFn, hlen]
  · intro m
    rw [hrun]
    dsimp only [PRes.val]
    rw [List.getD_cons_zero, getD_ofFn]
    by_cases hm : m < c3impulse.length
    · rw [dif_pos hm]
      dsimp only
      rw [yseq_c3]
      rw [hlen] at hm
      split_ifs <;> first | omega | ring
    · rw [dif_neg hm]
      rw [hlen] at hm
      rw [if_neg (by omega)]

/-- C8 amended: for a configured engine with `delay_frac > 0` **and
`delay_int = D ≥ 1`**, in a non-wrapping single-channel block, the deposit at
sample `n`'s `w2` slot is overwritten by sample `n + 1`'s `w1` deposit before
that slot is read: the output at step `n + D + 1` (the step that reads the
slot) carries the read-back value `(1 - delay_frac) * x_{n+1}` — only the
later sample's `(1 - delay_frac)`-weighted contribution, with no
`x_n * delay_frac` term. (When `delay_int = 0` the slot is instead read one
step before the overwrite; see the counterexample.) -/
theorem C8_amended_w2_overwritten (fb dry wet frac : ℚ) (k D : ℕ) (input : ℕ → ℚ)
    (samples : List ℚ) (d : DigitalDelay) (n : ℕ) (hD : 1 ≤ D)
    (hfb : d.feedback = fb) (hdry : d.dry_gain = dry) (hwet : d.wet_gain = wet)
    (hfrac : d.delay_frac = frac) (hdint : d.delay_int = D)
    (hlines : d.delay_lines = [List.replicate (2 ^ k) 0])
    (hr : d.read_index = 0)
    (hin : ∀ m : ℕ, samples.getD m 0 = input m)
    (hB : samples.length + D + 2 ≤ 2 ^ k)
    (hn : n + D + 1 < samples.length) :
    ((d.process_inplace [samples]).val.2.getD 0 []).getD (n + D + 1) 0
      = dry * input (n + D + 1)
        + wet * ((1 - frac) * (input (n + 1) + fb * yseq fb frac D input (n + 1))) := by
  obtain ⟨lineEnd, hrun⟩ := process_inplace_single fb dry wet frac k D input samples d hD
    hfb hdry hwet hfrac hdint hlines hr hin hB
  rw [hrun]
  dsimp only [PRes.val]
  rw [List.getD_cons_zero, getD_ofFn, dif_pos hn]
  dsimp only
  rw [yseq_ge hD (by omega)]
  rw [show n + D + 1 - D = n + 1 from by omega]
  rw [xval]

/-- Engine state used as the C8 amended-claim witness input: delay line of
length `2 ^ 3 = 8`, `delay_int = 1`, `delay_frac = 1/2`, feedback `1/5`,
dry 0, wet 1. -/
def dW8 : DigitalDelay :=
  { sample_rate := 8, delay_time := 125, feedback := 1/5, dry_gain := 0, wet_gain := 1,
    delay_int := 1, delay_frac := 1/2, delay_lines := [List.replicate (2 ^ 3) 0],
    read_index := 0 }

/-- The C8 amended-claim witness input signal. -/
def c8input : ℕ → ℚ := fun m => ([1, 0, 0] : List ℚ).getD m 0

theorem C8_amended_witness :
    (1 ≤ 1) ∧ (0 + 1 + 1 < ([1, 0, 0] : List ℚ).length) ∧
    ((dW8.process_inplace [[1, 0, 0]]).val.2.getD 0 []).getD (0 + 1 + 1) 0
      = 0 * c8input (0 + 1 + 1)
        + 1 * ((1 - 1/2) * (c8input (0 + 1) + (1/5) * yseq (1/5) (1/2) 1 c8input (0 + 1))) :=
  ⟨le_refl 1, by norm_num,
   C8_amended_w2_overwritten (1/5) 0 1 (1/2) 3 1 c8input [1, 0, 0] dW8 0 (le_refl 1)
     rfl rfl rfl rfl rfl rfl rfl (fun m => rfl) (by norm_num) (by norm_num)⟩

theorem getD_map_lists (f : List ℚ → List ℚ) (l : List (List ℚ)) (i : ℕ)
    (h : i < l.length) : (l.map f).getD i [] = f (l.getD i []) := by
  rw [List.getD_eq_getElem?_getD, List.getElem?_map, List.getElem?_eq_getElem h]
  rw [List.getD_eq_getElem?_getD, List.getElem?_eq_getElem h]
  rfl

/-- `prepare` never changes the number of delay lines (the channel count). -/
theorem prepare_length (d : DigitalDelay) (sr : ℚ) (bs : ℕ) :
    ((d.prepare sr bs).getD d).delay_lines.length = d.delay_lines.length := by
  by_cases h : 0 < sr
  · simp only [DigitalDelay.prepare, DigitalDelay.reset]
    rw [if_pos h]
    simp only [Option.getD_some, List.length_map]
  · simp only [DigitalDelay.prepare]
    rw [if_neg h]
    rfl

/-- C5: for every positive sample rate, `prepare` succeeds, and afterwards
every delay line has a power-of-two length that is at least
`ceil(1000 * sample_rate / 1000)` samples (1000 ms of history), and any two
delay lines have equal length. -/
theorem C5_prepare_sizing (d : DigitalDelay) (sr : ℚ) (bs i j : ℕ) (h : 0 < sr)
    (hi : i < ((d.prepare sr bs).getD d).delay_lines.length)
    (hj : j < ((d.prepare sr bs).getD d).delay_lines.length) :
    (d.prepare sr bs).isSome = true ∧
    Nat.isPowerOfTwo (((d.prepare sr bs).getD d).delay_lines.getD i []).length ∧
    (Int.ceil (1000 * sr / 1000)).toNat
      ≤ (((d.prepare sr bs).getD d).delay_lines.getD i []).length ∧
    (((d.prepare sr bs).getD d).delay_lines.getD i []).length
      = (((d.prepare sr bs).getD d).delay_lines.getD j []).length := by
  have hflen : ∀ (n : ℕ) (c : List ℚ),
      (c.take n ++ List.replicate (n - c.length) 0).length = n := by
    intro n c
    rw [List.length_append, List.length_take, List.length_replicate]
    omega
  simp only [DigitalDelay.prepare, DigitalDelay.reset, MAX_DELAY_TIME] at hi hj ⊢
  rw [if_pos h] at hi hj ⊢
  simp only [Option.getD_some, Option.isSome_some, List.length_map] at hi hj ⊢
  have hmapi := getD_map_lists
    (fun channel => List.take ((Int.ceil (1000 * sr / 1000)).toNat.nextPowerOfTwo) channel
      ++ List.replicate ((Int.ceil (1000 * sr / 1000)).toNat.nextPowerOfTwo - channel.length) 0)
    (d.delay_lines.map (fun channel => List.replicate channel.length (0 : ℚ))) i
    (by rw [List.length_map]; exact hi)
  have hmapj := getD_map_lists
    (fun channel => List.take ((Int.ceil (1000 * sr / 1000)).toNat.nextPowerOfTwo) channel
      ++ List.replicate ((Int.ceil (1000 * sr / 1000)).toNat.nextPowerOfTwo - channel.length) 0)
    (d.delay_lines.map (fun channel => List.replicate channel.length (0 : ℚ))) j
    (by rw [List.length_map]; exact hj)
  rw [hmapi, hmapj, hflen, hflen]
  exact ⟨trivial, Nat.isPowerOfTwo_nextPowerOfTwo _, le_nextPowerOfTwo _, rfl⟩

theorem C5_prepare_sizing_witness :
    ((0 : ℚ) < 2) ∧
    (0 < (((DigitalDelay.new 1).prepare 2 0).getD (DigitalDelay.new 1)).delay_lines.length) ∧
    ((((DigitalDelay.new 1).prepare 2 0).isSome = true) ∧
     Nat.isPowerOfTwo
       (((((DigitalDelay.new 1).prepare 2 0).getD (DigitalDelay.new 1)).delay_lines.getD 0 []).length) ∧
     (Int.ceil ((1000 : ℚ) * 2 / 1000)).toNat
       ≤ ((((DigitalDelay.new 1).prepare 2 0).getD (DigitalDelay.new 1)).delay_lines.getD 0 []).length ∧
     ((((DigitalDelay.new 1).prepare 2 0).getD (DigitalDelay.new 1)).delay_lines.getD 0 []).length
       = ((((DigitalDelay.new 1).prepare 2 0).getD (DigitalDelay.new 1)).delay_lines.getD 0 []).length) :=
  ⟨by norm_num,
   by rw [prepare_length]; simp [DigitalDelay.new],
   C5_prepare_sizing (DigitalDelay.new 1) 2 0 0 0 (by norm_num)
     (by rw [prepare_length]; simp [DigitalDelay.new])
     (by rw [prepare_length]; simp [DigitalDelay.new])⟩

/-! Claim C7: channel independence. Control flow of `processChannel` depends
only on lengths and indices, never on sample values, and each channel touches
only its own delay line. -/

theorem get?_eq_getD_of_lt {α : Type} (l : List α) (dflt : α) (i : ℕ) (h : i < l.length) :
    l.get? i = some (l.getD i dflt) := by
  rw [List.get?_eq_getElem?, List.getD_eq_getElem?_getD, List.getElem?_eq_getElem h]
  rfl

theorem getD_set_self' {α : Type} (l : List α) (i : ℕ) (a dflt : α) (h : i < l.length) :
    (l.set i a).getD i dflt = a := by
  rw [List.getD_eq_getElem?_getD, List.getElem?_set_self (by simpa using h)]
  rfl

theorem getD_set_ne' {α : Type} (l : List α) {i j : ℕ} (a dflt : α) (h : i ≠ j) :
    (l.set i a).getD j dflt = l.getD j dflt := by
  rw [List.getD_eq_getElem?_getD, List.getElem?_set_ne h, ← List.getD_eq_getElem?_getD]

theorem pc_align (fb dry wet frac : ℚ) (mask : ℕ) :
    ∀ (s₁ s₂ line₁ line₂ : List ℚ) (r w1 w2 : ℕ),
      s₁.length = s₂.length → line₁.length = line₂.length →
      (processChannel fb dry wet frac mask line₁ r w1 w2 s₁).isOk
        = (processChannel fb dry wet frac mask line₂ r w1 w2 s₂).isOk ∧
      (processChannel fb dry wet frac mask line₁ r w1 w2 s₁).val.1.length
        = (processChannel fb dry wet frac mask line₂ r w1 w2 s₂).val.1.length := by
  intro s₁
  induction s₁ with
  | nil =>
    intro s₂ line₁ line₂ r w1 w2 hs hl
    cases s₂ with
    | nil => exact ⟨rfl, hl⟩
    | cons a₂ t₂ => simp at hs
  | cons a₁ t₁ ih =>
    intro s₂ line₁ line₂ r w1 w2 hs hl
    cases s₂ with
    | nil => simp at hs
    | cons a₂ t₂ =>
      simp only [List.length_cons, Nat.add_right_cancel_iff] at hs
      rw [processChannel, processChannel]
      by_cases hr : r < line₁.length
      · rw [get?_eq_getD_of_lt line₁ 0 r hr, get?_eq_getD_of_lt line₂ 0 r (by omega)]
        dsimp only
        by_cases hw1 : w1 < line₁.length
        · have hw1b : w1 < line₂.length := by omega
          rw [if_pos hw1, if_pos hw1b]
          by_cases hw2 : w2 < (line₁.set w1 ((a₁ + line₁.getD r 0 * fb) * (1 - frac))).length
          · have hw2b : w2 < (line₂.set w1 ((a₂ + line₂.getD r 0 * fb) * (1 - frac))).length := by
              simp only [List.length_set] at hw2 ⊢
              omega
            rw [if_pos hw2, if_pos hw2b]
            obtain ⟨hok, hlen⟩ := ih t₂
              ((line₁.set w1 ((a₁ + line₁.getD r 0 * fb) * (1 - frac))).set w2
                ((a₁ + line₁.getD r 0 * fb) * frac))
              ((line₂.set w1 ((a₂ + line₂.getD r 0 * fb) * (1 - frac))).set w2
                ((a₂ + line₂.getD r 0 * fb) * frac))
              ((r + 1) &&& mask) ((w1 + 1) &&& mask) ((w2 + 1) &&& mask) hs
              (by simpa using hl)
            cases hq₁ : processChannel fb dry wet frac mask
                ((line₁.set w1 ((a₁ + line₁.getD r 0 * fb) * (1 - frac))).set w2
                  ((a₁ + line₁.getD r 0 * fb) * frac))
                ((r + 1) &&& mask) ((w1 + 1) &&& mask) ((w2 + 1) &&& mask) t₁ with
            | ok p₁ =>
              cases hq₂ : processChannel fb dry wet frac mask
                  ((line₂.set w1 ((a₂ + line₂.getD r 0 * fb) * (1 - frac))).set w2
                    ((a₂ + line₂.getD r 0 * fb) * frac))
                  ((r + 1) &&& mask) ((w1 + 1) &&& mask) ((w2 + 1) &&& mask) t₂ with
              | ok p₂ =>
                cases p₁ with | mk l₁ o₁ =>
                cases p₂ with | mk l₂ o₂ =>
                rw [hq₁, hq₂] at hlen
                exact ⟨rfl, by simpa [PRes.val] using hlen⟩
              | panic p₂ =>
                rw [hq₁, hq₂] at hok
                simp [PRes.isOk] at hok
            | panic p₁ =>
              cases hq₂ : processChannel fb dry wet frac mask
                  ((line₂.set w1 ((a₂ + line₂.getD r 0 * fb) * (1 - frac))).set w2
                    ((a₂ + line₂.getD r 0 * fb) * frac))
                  ((r + 1) &&& mask) ((w1 + 1) &&& mask) ((w2 + 1) &&& mask) t₂ with
              | ok p₂ =>
                rw [hq₁, hq₂] at hok
                simp [PRes.isOk] at hok
              | panic p₂ =>
                cases p₁ with | mk l₁ o₁ =>
                cases p₂ with | mk l₂ o₂ =>
                rw [hq₁, hq₂] at hlen
                exact ⟨rfl, by simpa [PRes.val] using hlen⟩
          · have hw2b : ¬ w2 < (line₂.set w1 ((a₂ + line₂.getD r 0 * fb) * (1 - frac))).length := by
              simp only [List.length_set] at hw2 ⊢
              omega
            rw [if_neg hw2, if_neg hw2b]
            exact ⟨rfl, by simpa [PRes.val] using hl⟩
        · rw [if_neg hw1, if_neg (show ¬ w1 < line₂.length by omega)]
          exact ⟨rfl, by simpa [PRes.val] using hl⟩
      · rw [List.get?_eq_none.mpr (by omega), List.get?_eq_none.mpr (by omega)]
        exact ⟨rfl, by simpa [PRes.val] using hl⟩

theorem pcs_align (fb dry wet frac : ℚ) (dint mask r i : ℕ) :
    ∀ (c₁ c₂ lines₁ lines₂ : List (List ℚ)) (ch : ℕ),
      c₁.length = c₂.length →
      (∀ m, (c₁.getD m []).length = (c₂.getD m []).length) →
      lines₁.length = lines₂.length →
      (∀ m, (lines₁.getD m []).length = (lines₂.getD m []).length) →
      lines₁.get? i = lines₂.get? i →
      (ch ≤ i → c₁.get? (i - ch) = c₂.get? (i - ch)) →
      (processChannels fb dry wet frac dint mask r lines₁ ch c₁).isOk
        = (processChannels fb dry wet frac dint mask r lines₂ ch c₂).isOk ∧
      (processChannels fb dry wet frac dint mask r lines₁ ch c₁).val.1.get? i
        = (processChannels fb dry wet frac dint mask r lines₂ ch c₂).val.1.get? i ∧
      (ch ≤ i →
        (processChannels fb dry wet frac dint mask r lines₁ ch c₁).val.2.get? (i - ch)
          = (processChannels fb dry wet frac dint mask r lines₂ ch c₂).val.2.get? (i - ch)) := by
  intro c₁
  induction c₁ with
  | nil =>
    intro c₂ lines₁ lines₂ ch hcl hc hll hl hline hci
    cases c₂ with
    | nil => exact ⟨rfl, hline, fun _ => rfl⟩
    | cons a₂ t₂ => simp at hcl
  | cons a₁ t₁ ih =>
    intro c₂ lines₁ lines₂ ch hcl hc hll hl hline hci
    cases c₂ with
    | nil => simp at hcl
    | cons a₂ t₂ =>
      simp only [List.length_cons, Nat.add_right_cancel_iff] at hcl
      rw [processChannels, processChannels]
      by_cases hch : ch < lines₁.length
      · rw [get?_eq_getD_of_lt lines₁ [] ch hch, get?_eq_getD_of_lt lines₂ [] ch (by omega)]
        dsimp only
        by_cases hchi : ch = i
        · subst hchi
          have hlineD : lines₁.getD ch [] = lines₂.getD ch [] := by
            have h₁ := get?_eq_getD_of_lt lines₁ ([] : List ℚ) ch hch
            have h₂ := get?_eq_getD_of_lt lines₂ ([] : List ℚ) ch (by omega)
            rw [h₁, h₂] at hline
            exact Option.some.inj hline
          have ha : a₁ = a₂ := by
            have h := hci (le_refl ch)
            simp only [Nat.sub_self] at h
            exact Option.some.inj (by simpa using h)
          rw [hlineD, ha]
          cases hpc : processChannel fb dry wet frac mask (lines₂.getD ch []) r (r + dint)
              (r + dint + 1) a₂ with
          | panic p =>
            cases p with | mk l2 cc =>
            dsimp only
            refine ⟨rfl, ?_, fun hle => ?_⟩
            · dsimp only [PRes.val]
              rw [List.get?_set_eq_of_lt _ hch, List.get?_set_eq_of_lt _ (by omega)]
            · dsimp only [PRes.val]
              simp only [Nat.sub_self]
              rfl
          | ok p =>
            cases p with | mk l2 cc =>
            dsimp only
            obtain ⟨hok, hv1, hv2⟩ := ih t₂ (lines₁.set ch l2) (lines₂.set ch l2) (ch + 1)
              hcl (fun m => by have h := hc (m + 1); simpa using h)
              (by simp [hll])
              (fun m => by
                by_cases hm : m = ch
                · subst hm
                  rw [getD_set_self' _ _ _ _ hch, getD_set_self' _ _ _ _ (by omega)]
                · rw [getD_set_ne' _ _ _ (by omega), getD_set_ne' _ _ _ (by omega)]
                  exact hl m)
              (by rw [List.get?_set_eq_of_lt _ hch, List.get?_set_eq_of_lt _ (by omega)])
              (fun hle => absurd hle (by omega))
            cases hq₁ : processChannels fb dry wet frac dint mask r (lines₁.set ch l2)
                (ch + 1) t₁ with
            | ok q₁ =>
              cases hq₂ : processChannels fb dry wet frac dint mask r (lines₂.set ch l2)
                  (ch + 1) t₂ with
              | ok q₂ =>
                cases q₁ with | mk L₁ B₁ =>
                cases q₂ with | mk L₂ B₂ =>
                refine ⟨rfl, ?_, fun hle => ?_⟩
                · rw [hq₁, hq₂] at hv1
                  simpa [PRes.val] using hv1
                · dsimp only [PRes.val]
                  simp only [Nat.sub_self]
                  rfl
              | panic q₂ =>
                rw [hq₁, hq₂] at hok
                simp [PRes.isOk] at hok
            | panic q₁ =>
              cases hq₂ : processChannels fb dry wet frac dint mask r (lines₂.set ch l2)
                  (ch + 1) t₂ with
              | ok q₂ =>
                rw [hq₁, hq₂] at hok
                simp [PRes.isOk] at hok
              | panic q₂ =>
                cases q₁ with | mk L₁ B₁ =>
                cases q₂ with | mk L₂ B₂ =>
                refine ⟨rfl, ?_, fun hle => ?_⟩
                · rw [hq₁, hq₂] at hv1
                  simpa [PRes.val] using hv1
                · dsimp only [PRes.val]
                  simp only [Nat.sub_self]
                  rfl
        · obtain ⟨hok0, hlen0⟩ := pc_align fb dry wet frac mask a₁ a₂
            (lines₁.getD ch []) (lines₂.getD ch []) r (r + dint) (r + dint + 1)
            (by have h := hc 0; simpa using h) (hl ch)
          cases hpc₁ : processChannel fb dry wet frac mask (lines₁.getD ch []) r (r + dint)
              (r + dint + 1) a₁ with
          | panic p₁ =>
            cases hpc₂ : processChannel fb dry wet frac mask (lines₂.getD ch []) r (r + dint)
                (r + dint + 1) a₂ with
            | ok p₂ =>
              rw [hpc₁, hpc₂] at hok0
              simp [PRes.isOk] at hok0
            | panic p₂ =>
              cases p₁ with | mk l₁ cc₁ =>
              cases p₂ with | mk l₂ cc₂ =>
              dsimp only
              refine ⟨rfl, ?_, fun hle => ?_⟩
              · dsimp only [PRes.val]
                rw [List.get?_set_ne _ _ hchi, List.get?_set_ne _ _ hchi]
                exact hline
              · dsimp only [PRes.val]
                have hidx : i - ch = (i - (ch + 1)) + 1 := by omega
                rw [hidx]
                simp only [List.get?_cons_succ]
                have h := hci hle
                rw [hidx] at h
                simpa [List.get?_cons_succ] using h
          | ok p₁ =>
            cases hpc₂ : processChannel fb dry wet frac mask (lines₂.getD ch []) r (r + dint)
                (r + dint + 1) a₂ with
            | panic p₂ =>
              rw [hpc₁, hpc₂] at hok0
              simp [PRes.isOk] at hok0
            | ok p₂ =>
              cases p₁ with | mk l₁ cc₁ =>
              cases p₂ with | mk l₂ cc₂ =>
              dsimp only
              have hll2 : l₁.length = l₂.length := by
                rw [hpc₁, hpc₂] at hlen0
                simpa [PRes.val] using hlen0
              obtain ⟨hok, hv1, hv2⟩ := ih t₂ (lines₁.set ch l₁) (lines₂.set ch l₂) (ch + 1)
                hcl (fun m => by have h := hc (m + 1); simpa using h)
                (by simp [hll])
                (fun m => by
                  by_cases hm : m = ch
                  · subst hm
                    rw [getD_set_self' _ _ _ _ hch, getD_set_self' _ _ _ _ (by omega)]
                    exact hll2
                  · rw [getD_set_ne' _ _ _ (by omega), getD_set_ne' _ _ _ (by omega)]
                    exact hl m)
                (by
                  rw [List.get?_set_ne _ _ hchi, List.get?_set_ne _ _ hchi]
                  exact hline)
                (fun hle => by
                  have h := hci (by omega)
                  have hidx : i - ch = (i - (ch + 1)) + 1 := by omega
                  rw [hidx] at h
                  simpa [List.get?_cons_succ] using h)
              cases hq₁ : processChannels fb dry wet frac dint mask r (lines₁.set ch l₁)
                  (ch + 1) t₁ with
              | ok q₁ =>
                cases hq₂ : processChannels fb dry wet frac dint mask r (lines₂.set ch l₂)
                    (ch + 1) t₂ with
                | panic q₂ =>
                  rw [hq₁, hq₂] at hok
                  simp [PRes.isOk] at hok
                | ok q₂ =>
                  cases q₁ with | mk L₁ B₁ =>
                  cases q₂ with | mk L₂ B₂ =>
                  refine ⟨rfl, ?_, fun hle => ?_⟩
                  · rw [hq₁, hq₂] at hv1
                    simpa [PRes.val] using hv1
                  · have hidx : i - ch = (i - (ch + 1)) + 1 := by omega
                    dsimp only [PRes.val]
                    rw [hidx]
                    simp only [List.get?_cons_succ]
                    have h := hv2 (by omega)
                    rw [hq₁, hq₂] at h
                    simpa [PRes.val] using h
              | panic q₁ =>
                cases hq₂ : processChannels fb dry wet frac dint mask r (lines₂.set ch l₂)
                    (ch + 1) t₂ with
                | ok q₂ =>
                  rw [hq₁, hq₂] at hok
                  simp [PRes.isOk] at hok
                | panic q₂ =>
                  cases q₁ with | mk L₁ B₁ =>
                  cases q₂ with | mk L₂ B₂ =>
                  refine ⟨rfl, ?_, fun hle => ?_⟩
                  · rw [hq₁, hq₂] at hv1
                    simpa [PRes.val] using hv1
                  · have hidx : i - ch = (i - (ch + 1)) + 1 := by omega
                    dsimp only [PRes.val]
                    rw [hidx]
                    simp only [List.get?_cons_succ]
                    have h := hv2 (by omega)
                    rw [hq₁, hq₂] at h
                    simpa [PRes.val] using h
      · rw [List.get?_eq_none.mpr (by omega), List.get?_eq_none.mpr (by omega)]
        refine ⟨rfl, hline, fun hle => ?_⟩
        dsimp only [PRes.val]
        exact hci hle

/-- C7: channel independence. For one engine state and two input views of
equal channel count and equal per-channel block lengths that agree on channel
`i`, `process_inplace` produces the same channel-`i` output and the same
channel-`i` delay line in both runs: no other channel's samples influence
channel `i` (control flow depends only on lengths, and each channel reads and
writes only its own delay line). -/
theorem C7_channel_independence (d : DigitalDelay) (b₁ b₂ : List (List ℚ)) (i : ℕ)
    (hlen : b₁.length = b₂.length)
    (hch : ∀ m, (b₁.getD m []).length = (b₂.getD m []).length)
    (hi : b₁.get? i = b₂.get? i) :
    (d.process_inplace b₁).val.2.get? i = (d.process_inplace b₂).val.2.get? i ∧
    (d.process_inplace b₁).val.1.delay_lines.get? i
      = (d.process_inplace b₂).val.1.delay_lines.get? i := by
  simp only [DigitalDelay.process_inplace]
  cases hget : d.delay_lines.get? 0 with
  | none => exact ⟨hi, rfl⟩
  | some line0 =>
    dsimp only
    by_cases hlen0 : line0.length = 0
    · rw [if_pos hlen0, if_pos hlen0]
      exact ⟨hi, rfl⟩
    · rw [if_neg hlen0, if_neg hlen0]
      obtain ⟨hok, hv1, hv2⟩ := pcs_align d.feedback d.dry_gain d.wet_gain d.delay_frac
        d.delay_int (line0.length - 1) d.read_index i b₁ b₂ d.delay_lines d.delay_lines 0
        hlen hch rfl (fun _ => rfl) rfl (fun _ => by simpa using hi)
      have hv2' := hv2 (Nat.zero_le i)
      simp only [Nat.sub_zero] at hv2'
      cases hq₁ : processChannels d.feedback d.dry_gain d.wet_gain d.delay_frac d.delay_int
          (line0.length - 1) d.read_index d.delay_lines 0 b₁ with
      | ok q₁ =>
        cases hq₂ : processChannels d.feedback d.dry_gain d.wet_gain d.delay_frac d.delay_int
            (line0.length - 1) d.read_index d.delay_lines 0 b₂ with
        | panic q₂ =>
          rw [hq₁, hq₂] at hok
          simp [PRes.isOk] at hok
        | ok q₂ =>
          cases q₁ with | mk L₁ B₁ =>
          cases q₂ with | mk L₂ B₂ =>
          rw [hq₁, hq₂] at hv1 hv2'
          dsimp only [PRes.val] at hv1 hv2' ⊢
          exact ⟨hv2', hv1⟩
      | panic q₁ =>
        cases hq₂ : processChannels d.feedback d.dry_gain d.wet_gain d.delay_frac d.delay_int
            (line0.length - 1) d.read_index d.delay_lines 0 b₂ with
        | ok q₂ =>
          rw [hq₁, hq₂] at hok
          simp [PRes.isOk] at hok
        | panic q₂ =>
          cases q₁ with | mk L₁ B₁ =>
          cases q₂ with | mk L₂ B₂ =>
          rw [hq₁, hq₂] at hv1 hv2'
          dsimp only [PRes.val] at hv1 hv2' ⊢
          exact ⟨hv2', hv1⟩

/-- Two-channel engine state used as the C7 witness input. -/
def dW7 : DigitalDelay :=
  { sample_rate := 4, delay_time := 250, feedback := 0.2, dry_gain := 1, wet_gain := 0.25,
    delay_int := 1, delay_frac := 0, delay_lines := [[0, 0, 0, 0], [0, 0, 0, 0]],
    read_index := 0 }

theorem C7_channel_independence_witness :
    (([[1], [5]] : List (List ℚ)).length = ([[1], [7]] : List (List ℚ)).length) ∧
    (([[1], [5]] : List (List ℚ)).get? 0 = ([[1], [7]] : List (List ℚ)).get? 0) ∧
    ((dW7.process_inplace [[1], [5]]).val.2.get? 0
       = (dW7.process_inplace [[1], [7]]).val.2.get? 0 ∧
     (dW7.process_inplace [[1], [5]]).val.1.delay_lines.get? 0
       = (dW7.process_inplace [[1], [7]]).val.1.delay_lines.get? 0) :=
  ⟨rfl, rfl,
   C7_channel_independence dW7 [[1], [5]] [[1], [7]] 0 rfl
     (by
       intro m
       match m with
       | 0 => rfl
       | 1 => rfl
       | k + 2 => rfl)
     rfl⟩
